import Mathlib

/-!
# Library management: record codec, catalog store, persistence and search

A shallow embedding of `src/Library_management.cpp`.

* A C++ `string` is a finite sequence of characters, `Str := List Char`.  Only the
  delimiter `'|'`, the newline, the signs, the decimal digits and the white-space
  characters are ever distinguished by the program.
* A C++ `int` is an `Int` together with the range `INT_MIN ≤ q ≤ INT_MAX`.
* A stream (`ifstream`, `stringstream`) is the sequence of characters not yet read.
* Console output is not modelled; a function returns the vector it leaves behind
  (and, for `addBook`, which of its two messages it printed).
-/

namespace Library

/-- A C++ `std::string`: a finite sequence of characters. -/
abbrev Str := List Char

/-- Largest value of a 32-bit `int`. -/
def INT_MAX : Int := 2147483647

/-- Smallest value of a 32-bit `int`. -/
def INT_MIN : Int := -2147483648

/-- The class `Book` (lines 13-44): three strings and an `int`. -/
structure Book where
  title : Str
  author : Str
  isbn : Str
  quantity : Int
deriving DecidableEq

/-! ## Library functions used by the program -/

/-- The character of a decimal digit `d < 10`. -/
def digitChar (d : Nat) : Char := Char.ofNat (48 + d)

/-- Decimal digits of `n`, most significant first; `fuel` bounds the number of digits. -/
def decimal : Nat → Nat → Str
  | 0, _ => []
  | fuel + 1, n => if n < 10 then [digitChar n] else decimal fuel (n / 10) ++ [digitChar (n % 10)]

/-- The function `std::to_string(int)`: the decimal numeral, with a leading `-` when negative. -/
def to_string (q : Int) : Str :=
  if q < 0 then '-' :: decimal (q.natAbs + 1) q.natAbs else decimal (q.natAbs + 1) q.natAbs

/-- The predicate `isspace` of the C locale. -/
def isspace (c : Char) : Bool :=
  c = ' ' || c = '\t' || c = '\n' || c = Char.ofNat 11 || c = Char.ofNat 12 || c = '\r'

/-- The predicate `isdigit`. -/
def isdigit (c : Char) : Bool := decide ('0' ≤ c ∧ c ≤ '9')

/-- Value of a run of decimal digits, most significant first. -/
def digitsValue (ds : Str) : Nat := ds.foldl (fun acc c => 10 * acc + (c.toNat - 48)) 0

/-- An optional sign in front of the digits, as `strtol` reads it. -/
def stripSign : Str → Bool × Str
  | '-' :: r => (true, r)
  | '+' :: r => (false, r)
  | s => (false, s)

/-- The function `std::stoi(str)`: skip leading white space, read an optional sign and the
longest run of decimal digits; what follows the digits is ignored.  `none` stands for the
two exceptions: `invalid_argument` when there is no digit to read, `out_of_range` when
the number does not fit an `int`. -/
def stoi (str : Str) : Option Int :=
  let body := stripSign (str.dropWhile isspace)
  let ds := body.2.takeWhile isdigit
  if ds = [] then none
  else
    let v : Int := if body.1 then - (digitsValue ds : Int) else (digitsValue ds : Int)
    if INT_MIN ≤ v ∧ v ≤ INT_MAX then some v else none

/-- The function `std::getline(stream, str, delim)` on a stream holding `s`: it fails when
nothing is left to read; otherwise it extracts the characters before the first `delim`
(or all of them when there is none), and discards that `delim`.  The result is the
extracted string and the stream that remains. -/
def getline (s : Str) (delim : Char) : Option (Str × Str) :=
  match s with
  | [] => none
  | _ :: _ => some (s.takeWhile (fun c => c ≠ delim), (s.dropWhile (fun c => c ≠ delim)).tail)

/-- Position `pos` and onwards of the scan of `std::string::find`: the first position at
which `term` occurs in the string, `none` standing for `npos`. -/
def findFrom (term : Str) : Str → Nat → Option Nat
  | [], pos => if term = [] then some pos else none
  | c :: s, pos => if term.isPrefixOf (c :: s) then some pos else findFrom term s (pos + 1)

/-- The method `std::string::find(term)`. -/
def find (s term : Str) : Option Nat := findFrom term s 0

/-! ## The program -/

/-- The method `Book::toFileString` (lines 40-43). -/
def Book.toFileString (b : Book) : Str :=
  b.title ++ ['|'] ++ b.author ++ ['|'] ++ b.isbn ++ ['|'] ++ to_string b.quantity

/-- The contents `saveBooks` writes to the file (lines 59-61), when the file opens. -/
def saveBooks (books : List Book) : Str :=
  books.foldl (fun outFile book => outFile ++ book.toFileString ++ ['\n']) []

/-- The inner loop of `loadBooks` (lines 83-85): `getline` on the string stream with
delimiter `'|'`, pushing each segment, until `getline` fails. -/
def splitLoop : Nat → Str → List Str → List Str
  | 0, _, segments => segments
  | fuel + 1, ss, segments =>
    match getline ss '|' with
    | none => segments
    | some (segment, rest) => splitLoop fuel rest (segments ++ [segment])

/-- The segments of a line (lines 78-85).  Each successful `getline` consumes a character,
so the loop ends within `line.length + 1` rounds. -/
def splitSegments (line : Str) : List Str := splitLoop (line.length + 1) line []

/-- The record a line contributes (lines 88-95): exactly four segments, the fourth read
by `stoi`; `none` when the size test fails or `stoi` throws. -/
def decodeLine (line : Str) : Option Book :=
  match splitSegments line with
  | [s0, s1, s2, s3] =>
    match stoi s3 with
    | some quantity => some ⟨s0, s1, s2, quantity⟩
    | none => none
  | _ => none

/-- The outer loop of `loadBooks` (lines 77-97): `getline` on the file, one line a round. -/
def loadLoop : Nat → Str → List Book → List Book
  | 0, _, books => books
  | fuel + 1, inFile, books =>
    match getline inFile '\n' with
    | none => books
    | some (line, rest) =>
      match decodeLine line with
      | some book => loadLoop fuel rest (books ++ [book])
      | none => loadLoop fuel rest books

/-- The function `loadBooks` (lines 67-101); `none` is a file that cannot be opened. -/
def loadBooks (file : Option Str) : List Book :=
  match file with
  | none => []
  | some contents => loadLoop (contents.length + 1) contents []

/-- The message `addBook` ends with. -/
inductive AddOutcome where
  | alreadyExists
  | added
deriving DecidableEq

/-- The quantity prompt of `addBook` (lines 124-128): each element of `attempts` is what
one `cin >> quantity` reads (`none`: not a number); the loop takes the first number that
is at least 1.  `none` means the input ran out first. -/
def readQuantity : List (Option Int) → Option Int
  | [] => none
  | some q :: rest => if q < 1 then readQuantity rest else some q
  | none :: rest => readQuantity rest

/-- The scan of `addBook` (lines 131-136): `true` when a book with this ISBN is met. -/
def isbnExists : List Book → Str → Bool
  | [], _ => false
  | book :: rest, isbn => if book.isbn = isbn then true else isbnExists rest isbn

/-- The function `addBook` (lines 130-139) once the four inputs are read. -/
def addBook (books : List Book) (title author isbn : Str) (quantity : Int) :
    List Book × AddOutcome :=
  if isbnExists books isbn then (books, AddOutcome.alreadyExists)
  else (books ++ [⟨title, author, isbn, quantity⟩], AddOutcome.added)

/-- One round of the search loop (lines 184-190). -/
def searchStep (choice : Int) (searchTerm : Str) (results : List Book) (book : Book) :
    List Book :=
  if choice = 1 ∧ find book.title searchTerm ≠ none then results ++ [book]
  else if choice = 2 ∧ find book.author searchTerm ≠ none then results ++ [book]
  else if choice = 3 ∧ book.isbn = searchTerm then results ++ [book]
  else results

/-- The function `searchBook` (lines 157-191): the vector `results` it goes on to print;
nothing is found in an empty library. -/
def searchBook (books : List Book) (choice : Int) (searchTerm : Str) : List Book :=
  if books.isEmpty then [] else books.foldl (searchStep choice searchTerm) []

/-! ## Notions used to state the properties -/

/-- Lines joined the way the file holds them: each followed by a newline. -/
def unlines : List Str → Str
  | [] => []
  | l :: ls => l ++ '\n' :: unlines ls

/-- The pieces a stream falls into under repeated `getline` with delimiter `d`: the text
between consecutive delimiters, and the text after the last one when it is not empty. -/
def pieces (d : Char) : Str → List Str
  | [] => []
  | c :: cs =>
    if c = d then [] :: pieces d cs
    else
      match pieces d cs with
      | [] => [[c]]
      | p :: ps => (c :: p) :: ps

/-- No two records at different positions carry the same ISBN. -/
def DistinctIsbns (books : List Book) : Prop :=
  books.Pairwise (fun a b => a.isbn ≠ b.isbn)

instance (books : List Book) : Decidable (DistinctIsbns books) := by
  unfold DistinctIsbns; infer_instance

/-- The string `s` contains `term` as a contiguous run of characters. -/
def ContainsSubstring (s term : Str) : Prop := ∃ pre post, s = pre ++ term ++ post

/-- A field that can be saved and read back: no delimiter and no newline in it. -/
def CleanField (s : Str) : Prop := '|' ∉ s ∧ '\n' ∉ s

/-- A record as the round trip takes it: clean text fields and a positive `int`. -/
def ValidRecord (b : Book) : Prop :=
  CleanField b.title ∧ CleanField b.author ∧ CleanField b.isbn ∧
    1 ≤ b.quantity ∧ b.quantity ≤ INT_MAX

instance (s : Str) : Decidable (CleanField s) := by
  unfold CleanField; infer_instance

instance (b : Book) : Decidable (ValidRecord b) := by
  unfold ValidRecord; infer_instance

instance (s term : Str) : Decidable (ContainsSubstring s term) :=
  decidable_of_iff (term <:+: s)
    ⟨fun ⟨pre, post, h⟩ => ⟨pre, post, h.symm⟩, fun ⟨pre, post, h⟩ => ⟨pre, post, h.symm⟩⟩

/-- A run of `addBook` calls, one for each entered record, in order. -/
def addAll (books entered : List Book) : List Book :=
  entered.foldl (fun bs e => (addBook bs e.title e.author e.isbn e.quantity).1) books

/-- The field begins, after white space, with an optional sign and a run of decimal digits
that denotes the `int` `v`; what follows the digits is free but starts with no digit. -/
def StartsWithInt (field : Str) (v : Int) : Prop :=
  ∃ ws sign ds rest, field = ws ++ sign ++ ds ++ rest ∧
    (∀ c ∈ ws, isspace c = true) ∧ (sign = [] ∨ sign = ['+'] ∨ sign = ['-']) ∧
    ds ≠ [] ∧ (∀ c ∈ ds, isdigit c = true) ∧
    (∀ c, rest.head? = some c → isdigit c = false) ∧
    v = (if sign = ['-'] then - (digitsValue ds : Int) else (digitsValue ds : Int)) ∧
    INT_MIN ≤ v ∧ v ≤ INT_MAX

/-- An integer written in decimal and nothing else: an optional minus sign and one or
more decimal digits. -/
def isDecimalInteger : Str → Bool
  | '-' :: ds => !ds.isEmpty && ds.all isdigit
  | ds => !ds.isEmpty && ds.all isdigit

/-! ## Characters and numerals -/

theorem digitChar_isdigit (d : Nat) (h : d < 10) : isdigit (digitChar d) = true := by
  interval_cases d <;> decide

theorem digitChar_toNat (d : Nat) (h : d < 10) : (digitChar d).toNat - 48 = d := by
  interval_cases d <;> decide

theorem isspace_not_isdigit (c : Char) (h : isspace c = true) : isdigit c = false := by
  simp only [isspace, Bool.or_eq_true, decide_eq_true_eq] at h
  rcases h with ((((h | h) | h) | h) | h) | h <;> subst h <;> decide

theorem isdigit_ne (c x : Char) (h : isdigit c = true) (hx : isdigit x = false) : c ≠ x := by
  rintro rfl
  rw [h] at hx
  exact Bool.noConfusion hx

theorem digitsValue_append (l : Str) (c : Char) :
    digitsValue (l ++ [c]) = 10 * digitsValue l + (c.toNat - 48) := by
  simp [digitsValue, List.foldl_append]

theorem decimal_ne_nil : ∀ (fuel n : Nat), n < fuel → decimal fuel n ≠ []
  | 0, _, h => absurd h (Nat.not_lt_zero _)
  | fuel + 1, n, _ => by
    unfold decimal
    split <;> simp

theorem decimal_isdigit : ∀ (fuel n : Nat), ∀ c ∈ decimal fuel n, isdigit c = true
  | 0, _, c, hc => by simp [decimal] at hc
  | fuel + 1, n, c, hc => by
    unfold decimal at hc
    split at hc
    · rename_i hn
      rw [List.mem_singleton] at hc
      subst hc
      exact digitChar_isdigit n hn
    · rw [List.mem_append, List.mem_singleton] at hc
      rcases hc with hc | hc
      · exact decimal_isdigit fuel (n / 10) c hc
      · subst hc
        exact digitChar_isdigit _ (Nat.mod_lt _ (by decide))

theorem digitsValue_decimal : ∀ (fuel n : Nat), n < fuel → digitsValue (decimal fuel n) = n
  | 0, _, h => absurd h (Nat.not_lt_zero _)
  | fuel + 1, n, h => by
    unfold decimal
    split
    · rename_i hn
      have := digitsValue_append [] (digitChar n)
      simp only [List.nil_append] at this
      rw [this, digitChar_toNat n hn]
      simp [digitsValue]
    · rw [digitsValue_append, digitsValue_decimal fuel (n / 10) (by omega),
        digitChar_toNat _ (Nat.mod_lt _ (by decide))]
      omega

/-! ## `stoi` -/

theorem dropWhile_isspace_append (ws x : Str) (hws : ∀ c ∈ ws, isspace c = true)
    (hx : ∀ c, x.head? = some c → isspace c = false) :
    (ws ++ x).dropWhile isspace = x := by
  induction ws with
  | nil =>
    cases x with
    | nil => rfl
    | cons c cs => simp [List.dropWhile, hx c rfl]
  | cons w ws ih =>
    have hw : isspace w = true := hws w (List.mem_cons_self _ _)
    rw [List.cons_append, List.dropWhile_cons, hw, if_pos rfl]
    exact ih (fun c hc => hws c (List.mem_cons_of_mem _ hc))

theorem takeWhile_isdigit_append (ds rest : Str) (hds : ∀ c ∈ ds, isdigit c = true)
    (hrest : ∀ c, rest.head? = some c → isdigit c = false) :
    (ds ++ rest).takeWhile isdigit = ds := by
  induction ds with
  | nil =>
    cases rest with
    | nil => rfl
    | cons c cs => simp [List.takeWhile, hrest c rfl]
  | cons d ds ih =>
    have hd : isdigit d = true := hds d (List.mem_cons_self _ _)
    rw [List.cons_append, List.takeWhile_cons, hd, if_pos rfl,
      ih (fun c hc => hds c (List.mem_cons_of_mem _ hc))]

theorem stripSign_digit (c : Char) (cs : Str) (hc : isdigit c = true) :
    stripSign (c :: cs) = (false, c :: cs) := by
  have h1 : c ≠ '-' := isdigit_ne c '-' hc (by decide)
  have h2 : c ≠ '+' := isdigit_ne c '+' hc (by decide)
  unfold stripSign
  split
  · rename_i heq; simp only [List.cons.injEq] at heq; exact absurd heq.1 h1
  · rename_i heq; simp only [List.cons.injEq] at heq; exact absurd heq.1 h2
  · rfl

/-- What `stoi` returns on white space, a sign, digits and a tail that starts with no digit. -/
theorem stoi_decompose (ws ds rest : Str) (neg : Bool) (sign : Str)
    (hsign : sign = ['-'] ∧ neg = true ∨ (sign = ['+'] ∨ sign = []) ∧ neg = false)
    (hws : ∀ c ∈ ws, isspace c = true) (hds : ∀ c ∈ ds, isdigit c = true) (hne : ds ≠ [])
    (hrest : ∀ c, rest.head? = some c → isdigit c = false) :
    stoi (ws ++ sign ++ ds ++ rest) =
      (let v : Int := if neg then - (digitsValue ds : Int) else (digitsValue ds : Int)
       if INT_MIN ≤ v ∧ v ≤ INT_MAX then some v else none) := by
  obtain ⟨d, ds', rfl⟩ : ∃ d ds', ds = d :: ds' := by
    cases ds with
    | nil => exact absurd rfl hne
    | cons d ds' => exact ⟨d, ds', rfl⟩
  have hd : isdigit d = true := hds d (List.mem_cons_self _ _)
  have hdrop : (ws ++ sign ++ (d :: ds') ++ rest).dropWhile isspace
      = sign ++ (d :: ds') ++ rest := by
    have key := dropWhile_isspace_append ws (sign ++ (d :: ds') ++ rest) hws
    simp only [List.append_assoc] at key ⊢
    apply key
    intro c hc
    rcases hsign with ⟨rfl, -⟩ | ⟨rfl | rfl, -⟩
    · simp at hc; subst hc; decide
    · simp at hc; subst hc; decide
    · simp at hc; subst hc
      cases hs : isspace d with
      | false => rfl
      | true => rw [isspace_not_isdigit d hs] at hd; exact Bool.noConfusion hd
  have hstrip : stripSign (sign ++ (d :: ds') ++ rest) = (neg, (d :: ds') ++ rest) := by
    rcases hsign with ⟨rfl, rfl⟩ | ⟨rfl | rfl, rfl⟩
    · rfl
    · rfl
    · exact stripSign_digit d (ds' ++ rest) hd
  have htake : ((d :: ds') ++ rest).takeWhile isdigit = d :: ds' :=
    takeWhile_isdigit_append (d :: ds') rest hds hrest
  simp only [stoi, hdrop, hstrip, htake]
  simp

theorem stoi_to_string (q : Int) (hlo : INT_MIN ≤ q) (hhi : q ≤ INT_MAX) :
    stoi (to_string q) = some q := by
  have hne := decimal_ne_nil (q.natAbs + 1) q.natAbs (Nat.lt_succ_self _)
  have hdig := decimal_isdigit (q.natAbs + 1) q.natAbs
  have hval := digitsValue_decimal (q.natAbs + 1) q.natAbs (Nat.lt_succ_self _)
  by_cases hq : q < 0
  · have h := stoi_decompose [] (decimal (q.natAbs + 1) q.natAbs) [] true ['-']
      (Or.inl ⟨rfl, rfl⟩) (by simp) hdig hne (by simp)
    simp only [List.nil_append, List.append_nil, hval] at h
    have hq' : -((q.natAbs : Nat) : Int) = q := by omega
    simp only [to_string, hq, if_true]
    rw [show '-' :: decimal (q.natAbs + 1) q.natAbs = ['-'] ++ decimal (q.natAbs + 1) q.natAbs
      from rfl, h]
    simp only [hq', if_true, hlo, hhi, and_self]
  · have h := stoi_decompose [] (decimal (q.natAbs + 1) q.natAbs) [] false []
      (Or.inr ⟨Or.inr rfl, rfl⟩) (by simp) hdig hne (by simp)
    simp only [List.nil_append, List.append_nil, hval] at h
    have hq' : ((q.natAbs : Nat) : Int) = q := by omega
    simp only [to_string, hq, if_false]
    rw [h]
    simp only [hq', Bool.false_eq_true, if_false, if_true, hlo, hhi, and_self]

theorem to_string_clean (q : Int) (c : Char) (hc : c ∈ to_string q) :
    c = '-' ∨ isdigit c = true := by
  unfold to_string at hc
  split at hc
  · rcases List.mem_cons.1 hc with h | h
    · exact Or.inl h
    · exact Or.inr (decimal_isdigit _ _ c h)
  · exact Or.inr (decimal_isdigit _ _ c hc)

theorem to_string_ne_nil (q : Int) : to_string q ≠ [] := by
  unfold to_string
  split
  · simp
  · exact decimal_ne_nil _ _ (Nat.lt_succ_self _)

/-! ## `getline` and the two reading loops -/

theorem pieces_eq_nil (d : Char) (s : Str) : pieces d s = [] ↔ s = [] := by
  cases s with
  | nil => simp [pieces]
  | cons c cs =>
    simp only [pieces]
    split
    · simp
    · split <;> simp

/-- A successful `getline` hands over the first piece and leaves the stream of the others. -/
theorem getline_pieces (d : Char) (s : Str) (hs : s ≠ []) :
    pieces d s
      = s.takeWhile (fun c => c ≠ d) :: pieces d (s.dropWhile (fun c => c ≠ d)).tail := by
  induction s with
  | nil => exact absurd rfl hs
  | cons c cs ih =>
    by_cases hc : c = d
    · subst hc
      simp [pieces, List.takeWhile_cons, List.dropWhile_cons]
    · simp only [pieces, hc, if_false, List.takeWhile_cons, List.dropWhile_cons, ne_eq,
        not_false_eq_true, decide_True, if_true]
      cases cs with
      | nil => simp [pieces]
      | cons c' cs' =>
        rw [ih (by simp)]

theorem getline_rest_length (d : Char) (s : Str) (hs : s ≠ []) :
    ((s.dropWhile (fun c => c ≠ d)).tail).length < s.length := by
  have h1 : (s.dropWhile (fun c => c ≠ d)).length ≤ s.length :=
    (List.dropWhile_sublist _).length_le
  have h2 : 0 < s.length := List.length_pos.2 hs
  rw [List.length_tail]
  omega

theorem splitLoop_eq : ∀ (fuel : Nat) (ss : Str) (segments : List Str),
    ss.length ≤ fuel → splitLoop fuel ss segments = segments ++ pieces '|' ss
  | 0, ss, segments, h => by
    have : ss = [] := List.length_eq_zero.1 (Nat.le_zero.1 h)
    subst this
    simp [splitLoop, pieces]
  | fuel + 1, [], segments, _ => by simp [splitLoop, getline, pieces]
  | fuel + 1, c :: cs, segments, h => by
    have hlen := getline_rest_length '|' (c :: cs) (by simp)
    rw [getline_pieces '|' (c :: cs) (by simp)]
    simp only [splitLoop, getline]
    rw [splitLoop_eq fuel _ _ (by omega)]
    simp

theorem splitSegments_eq (line : Str) : splitSegments line = pieces '|' line := by
  unfold splitSegments
  rw [splitLoop_eq _ _ _ (Nat.le_succ _)]
  rfl

theorem loadLoop_eq : ∀ (fuel : Nat) (inFile : Str) (books : List Book),
    inFile.length ≤ fuel →
      loadLoop fuel inFile books = books ++ (pieces '\n' inFile).filterMap decodeLine
  | 0, inFile, books, h => by
    have : inFile = [] := List.length_eq_zero.1 (Nat.le_zero.1 h)
    subst this
    simp [loadLoop, pieces]
  | fuel + 1, [], books, _ => by simp [loadLoop, getline, pieces]
  | fuel + 1, c :: cs, books, h => by
    have hlen := getline_rest_length '\n' (c :: cs) (by simp)
    rw [getline_pieces '\n' (c :: cs) (by simp)]
    simp only [loadLoop, getline]
    cases hdec : decodeLine (List.takeWhile (fun x => x ≠ '\n') (c :: cs)) with
    | none =>
      simp only [List.filterMap_cons, hdec]
      exact loadLoop_eq fuel _ _ (by omega)
    | some book =>
      simp only [List.filterMap_cons, hdec]
      rw [loadLoop_eq fuel _ _ (by omega)]
      simp

/-- The rounds granted to the loops are never used up: more rounds change nothing. -/
theorem loadLoop_fuel (fuel : Nat) (inFile : Str) (books : List Book)
    (h : inFile.length ≤ fuel) :
    loadLoop fuel inFile books = loadLoop inFile.length inFile books := by
  rw [loadLoop_eq fuel inFile books h, loadLoop_eq _ inFile books (Nat.le_refl _)]

theorem splitLoop_fuel (fuel : Nat) (ss : Str) (segments : List Str) (h : ss.length ≤ fuel) :
    splitLoop fuel ss segments = splitLoop ss.length ss segments := by
  rw [splitLoop_eq fuel ss segments h, splitLoop_eq _ ss segments (Nat.le_refl _)]

theorem loadBooks_eq (contents : Str) :
    loadBooks (some contents) = (pieces '\n' contents).filterMap decodeLine := by
  unfold loadBooks
  simp only
  rw [loadLoop_eq _ _ _ (Nat.le_succ _)]
  rfl

theorem pieces_no_delim (d : Char) (s : Str) (hd : d ∉ s) :
    pieces d s = if s = [] then [] else [s] := by
  induction s with
  | nil => rfl
  | cons c cs ih =>
    have hc : c ≠ d := fun h => hd (h ▸ List.mem_cons_self _ _)
    have hcs : d ∉ cs := fun h => hd (List.mem_cons_of_mem _ h)
    simp only [pieces, hc, if_false, ih hcs]
    cases cs with
    | nil => simp
    | cons c' cs' => simp

theorem pieces_append_delim (d : Char) (l rest : Str) (hd : d ∉ l) :
    pieces d (l ++ d :: rest) = l :: pieces d rest := by
  induction l with
  | nil => simp [pieces]
  | cons c cs ih =>
    have hc : c ≠ d := fun h => hd (h ▸ List.mem_cons_self _ _)
    have hcs : d ∉ cs := fun h => hd (List.mem_cons_of_mem _ h)
    rw [List.cons_append]
    simp only [pieces, hc, if_false]
    rw [ih hcs]

theorem pieces_unlines (ls : List Str) (last : Str) (hls : ∀ l ∈ ls, '\n' ∉ l)
    (hlast : '\n' ∉ last) :
    pieces '\n' (unlines ls ++ last) = ls ++ (if last = [] then [] else [last]) := by
  induction ls with
  | nil => simpa [unlines] using pieces_no_delim '\n' last hlast
  | cons l ls ih =>
    have h1 : '\n' ∉ l := hls l (List.mem_cons_self _ _)
    have h2 : ∀ x ∈ ls, '\n' ∉ x := fun x hx => hls x (List.mem_cons_of_mem _ hx)
    simp only [unlines, List.append_assoc, List.cons_append]
    rw [pieces_append_delim '\n' l _ h1, ih h2]

/-- Every file is a sequence of newline-terminated lines and a last, unterminated one. -/
theorem file_shape (contents : Str) :
    ∃ (ls : List Str) (last : Str),
      contents = unlines ls ++ last ∧ (∀ l ∈ ls, '\n' ∉ l) ∧ '\n' ∉ last := by
  induction contents with
  | nil => exact ⟨[], [], rfl, by simp, by simp⟩
  | cons c cs ih =>
    obtain ⟨ls, last, hcs, hls, hlast⟩ := ih
    by_cases hc : c = '\n'
    · subst hc
      refine ⟨[] :: ls, last, ?_, ?_, hlast⟩
      · simp [unlines, hcs]
      · intro l hl
        rcases List.mem_cons.1 hl with h | h
        · subst h; simp
        · exact hls l h
    · cases ls with
      | nil =>
        refine ⟨[], c :: last, ?_, by simp, ?_⟩
        · simp [unlines] at hcs ⊢
          exact hcs
        · intro h
          rcases List.mem_cons.1 h with h | h
          · exact hc h.symm
          · exact hlast h
      | cons l ls =>
        refine ⟨(c :: l) :: ls, last, ?_, ?_, hlast⟩
        · simp [unlines] at hcs ⊢
          exact hcs
        · intro x hx
          rcases List.mem_cons.1 hx with h | h
          · subst h
            intro h'
            rcases List.mem_cons.1 h' with h'' | h''
            · exact hc h''.symm
            · exact hls l (List.mem_cons_self _ _) h''
          · exact hls x (List.mem_cons_of_mem _ h)

/-! ## Save and load -/

theorem saveBooks_foldl (books : List Book) (outFile : Str) :
    books.foldl (fun outFile book => outFile ++ book.toFileString ++ ['\n']) outFile
      = outFile ++ unlines (books.map Book.toFileString) := by
  induction books generalizing outFile with
  | nil => simp [unlines]
  | cons b bs ih =>
    rw [List.foldl_cons, ih]
    simp [unlines]

theorem saveBooks_eq (books : List Book) :
    saveBooks books = unlines (books.map Book.toFileString) := by
  unfold saveBooks
  rw [saveBooks_foldl]
  rfl

theorem to_string_no_char (q : Int) (x : Char) (hx : x ≠ '-') (hd : isdigit x = false) :
    x ∉ to_string q := by
  intro h
  rcases to_string_clean q x h with h' | h'
  · exact hx h'
  · rw [hd] at h'; exact Bool.noConfusion h'

theorem splitSegments_toFileString (b : Book) (ht : '|' ∉ b.title) (ha : '|' ∉ b.author)
    (hi : '|' ∉ b.isbn) :
    splitSegments b.toFileString = [b.title, b.author, b.isbn, to_string b.quantity] := by
  have hq : '|' ∉ to_string b.quantity := to_string_no_char _ _ (by decide) (by decide)
  rw [splitSegments_eq]
  unfold Book.toFileString
  simp only [List.append_assoc, List.singleton_append, List.cons_append, List.nil_append]
  rw [pieces_append_delim _ _ _ ht, pieces_append_delim _ _ _ ha, pieces_append_delim _ _ _ hi,
    pieces_no_delim _ _ hq, if_neg (to_string_ne_nil _)]

/-- Decoding the encoded line of a record gives the record back. -/
theorem decodeLine_toFileString (b : Book) (ht : '|' ∉ b.title) (ha : '|' ∉ b.author)
    (hi : '|' ∉ b.isbn) (hlo : INT_MIN ≤ b.quantity) (hhi : b.quantity ≤ INT_MAX) :
    decodeLine b.toFileString = some b := by
  unfold decodeLine
  rw [splitSegments_toFileString b ht ha hi]
  simp only [stoi_to_string b.quantity hlo hhi]

theorem toFileString_no_newline (b : Book) (ht : '\n' ∉ b.title) (ha : '\n' ∉ b.author)
    (hi : '\n' ∉ b.isbn) : '\n' ∉ b.toFileString := by
  have hq : '\n' ∉ to_string b.quantity := to_string_no_char _ _ (by decide) (by decide)
  unfold Book.toFileString
  simp only [List.mem_append, List.mem_singleton, not_or]
  exact ⟨⟨⟨⟨⟨⟨ht, by decide⟩, ha⟩, by decide⟩, hi⟩, by decide⟩, hq⟩

/-- Loading a file of newline-terminated lines, with or without a last unterminated line. -/
theorem loadBooks_unlines (ls : List Str) (last : Str) (hls : ∀ l ∈ ls, '\n' ∉ l)
    (hlast : '\n' ∉ last) :
    loadBooks (some (unlines ls ++ last))
      = (ls ++ (if last = [] then [] else [last])).filterMap decodeLine := by
  rw [loadBooks_eq, pieces_unlines ls last hls hlast]

/-- A line that decodes to nothing can be taken out of the file without any effect. -/
theorem loadBooks_skip (before after : List Str) (line : Str)
    (hlines : ∀ l ∈ before ++ after, '\n' ∉ l) (hline : '\n' ∉ line)
    (hdec : decodeLine line = none) :
    loadBooks (some (unlines (before ++ line :: after)))
      = loadBooks (some (unlines (before ++ after))) := by
  have h1 := loadBooks_unlines (before ++ line :: after) [] (by
    intro l hl
    rcases List.mem_append.1 hl with h | h
    · exact hlines l (List.mem_append_left _ h)
    · rcases List.mem_cons.1 h with h | h
      · exact h ▸ hline
      · exact hlines l (List.mem_append_right _ h)) (by simp)
  have h2 := loadBooks_unlines (before ++ after) [] hlines (by simp)
  simp only [List.append_nil, if_true] at h1 h2
  rw [h1, h2]
  simp [List.filterMap_append, List.filterMap_cons, hdec]

theorem roundtrip_general (books : List Book)
    (h : ∀ b ∈ books, CleanField b.title ∧ CleanField b.author ∧ CleanField b.isbn ∧
      INT_MIN ≤ b.quantity ∧ b.quantity ≤ INT_MAX) :
    loadBooks (some (saveBooks books)) = books := by
  have hnl : ∀ l ∈ books.map Book.toFileString, '\n' ∉ l := by
    intro l hl
    obtain ⟨b, hb, rfl⟩ := List.mem_map.1 hl
    obtain ⟨ht, ha, hi, -, -⟩ := h b hb
    exact toFileString_no_newline b ht.2 ha.2 hi.2
  have hload := loadBooks_unlines (books.map Book.toFileString) [] hnl (by simp)
  simp only [List.append_nil, if_true] at hload
  rw [saveBooks_eq, hload]
  clear hload hnl
  induction books with
  | nil => rfl
  | cons b bs ih =>
    obtain ⟨ht, ha, hi, hlo, hhi⟩ := h b (List.mem_cons_self _ _)
    rw [List.map_cons, List.filterMap_cons, decodeLine_toFileString b ht.1 ha.1 hi.1 hlo hhi]
    simp only
    rw [ih (fun x hx => h x (List.mem_cons_of_mem _ hx))]

/-- C1. Save/load round trip: for every catalog whose titles, authors and ISBNs contain
neither `'|'` nor a newline, whose quantities are at least 1 (and fit an `int`) and whose
ISBNs are pairwise distinct, `saveBooks` writes one `toFileString` line per record, each
followed by a newline, loading those contents gives back the same records in the same
order, and decoding the encoded line of each record gives that record. -/
theorem save_load_roundtrip (books : List Book) (hvalid : ∀ b ∈ books, ValidRecord b)
    (_hdistinct : DistinctIsbns books) :
    saveBooks books = unlines (books.map Book.toFileString) ∧
    loadBooks (some (saveBooks books)) = books ∧
      ∀ b ∈ books, decodeLine b.toFileString = some b := by
  have hint : (INT_MIN : Int) ≤ 1 := by decide
  refine ⟨saveBooks_eq books, ?_, ?_⟩
  · apply roundtrip_general
    intro b hb
    obtain ⟨ht, ha, hi, hq, hhi⟩ := hvalid b hb
    exact ⟨ht, ha, hi, le_trans hint hq, hhi⟩
  · intro b hb
    obtain ⟨ht, ha, hi, hq, hhi⟩ := hvalid b hb
    exact decodeLine_toFileString b ht.1 ha.1 hi.1 (le_trans hint hq) hhi

theorem save_load_roundtrip_witness :
    (∀ b ∈ [(⟨"Dune".toList, "Frank Herbert".toList, "0441013597".toList, 3⟩ : Book),
        ⟨"The Go Programming Language".toList, [], "978-0-13-468599-1".toList, 2147483647⟩],
      ValidRecord b) ∧
    DistinctIsbns [(⟨"Dune".toList, "Frank Herbert".toList, "0441013597".toList, 3⟩ : Book),
        ⟨"The Go Programming Language".toList, [], "978-0-13-468599-1".toList, 2147483647⟩] ∧
    (saveBooks [(⟨"Dune".toList, "Frank Herbert".toList, "0441013597".toList, 3⟩ : Book),
        ⟨"The Go Programming Language".toList, [], "978-0-13-468599-1".toList, 2147483647⟩]
      = unlines (List.map Book.toFileString
        [(⟨"Dune".toList, "Frank Herbert".toList, "0441013597".toList, 3⟩ : Book),
          ⟨"The Go Programming Language".toList, [], "978-0-13-468599-1".toList, 2147483647⟩]) ∧
     loadBooks (some (saveBooks
        [(⟨"Dune".toList, "Frank Herbert".toList, "0441013597".toList, 3⟩ : Book),
          ⟨"The Go Programming Language".toList, [], "978-0-13-468599-1".toList, 2147483647⟩]))
      = [(⟨"Dune".toList, "Frank Herbert".toList, "0441013597".toList, 3⟩ : Book),
          ⟨"The Go Programming Language".toList, [], "978-0-13-468599-1".toList, 2147483647⟩] ∧
      ∀ b ∈ [(⟨"Dune".toList, "Frank Herbert".toList, "0441013597".toList, 3⟩ : Book),
          ⟨"The Go Programming Language".toList, [], "978-0-13-468599-1".toList, 2147483647⟩],
        decodeLine b.toFileString = some b) :=
  ⟨by decide, by decide, save_load_roundtrip _ (by decide) (by decide)⟩

/-! ## The catalog store -/

theorem isbnExists_iff (books : List Book) (isbn : Str) :
    isbnExists books isbn = true ↔ ∃ b ∈ books, b.isbn = isbn := by
  induction books with
  | nil => simp [isbnExists]
  | cons b bs ih =>
    unfold isbnExists
    by_cases h : b.isbn = isbn
    · simp [h]
    · simp [h, ih]

theorem distinct_append_new (books : List Book) (b : Book) (h : DistinctIsbns books)
    (hnew : ∀ x ∈ books, x.isbn ≠ b.isbn) : DistinctIsbns (books ++ [b]) := by
  unfold DistinctIsbns at *
  rw [List.pairwise_append]
  refine ⟨h, List.pairwise_singleton _ _, ?_⟩
  intro x hx y hy
  rw [List.mem_singleton] at hy
  subst hy
  exact hnew x hx

theorem addBook_distinct (books : List Book) (e : Book) (h : DistinctIsbns books) :
    DistinctIsbns (addBook books e.title e.author e.isbn e.quantity).1 := by
  unfold addBook
  cases hex : isbnExists books e.isbn with
  | true => simpa using h
  | false =>
    simp only [Bool.false_eq_true, if_false]
    apply distinct_append_new books _ h
    intro x hx hxe
    have : isbnExists books e.isbn = true := (isbnExists_iff books e.isbn).2 ⟨x, hx, hxe⟩
    rw [hex] at this
    exact Bool.noConfusion this

theorem addAll_distinct (books entered : List Book) (h : DistinctIsbns books) :
    DistinctIsbns (addAll books entered) := by
  unfold addAll
  induction entered generalizing books with
  | nil => exact h
  | cons e es ih =>
    rw [List.foldl_cons]
    exact ih _ (addBook_distinct books e h)

/-- The quantity prompt lets through only a number that is at least 1. -/
theorem readQuantity_pos (attempts : List (Option Int)) (q : Int)
    (h : readQuantity attempts = some q) : 1 ≤ q := by
  induction attempts with
  | nil => simp [readQuantity] at h
  | cons a rest ih =>
    cases a with
    | none => exact ih (by simpa [readQuantity] using h)
    | some v =>
      unfold readQuantity at h
      split at h
      · exact ih h
      · rename_i hv
        have : v = q := Option.some.inj h
        omega

/-- C2. Duplicate add is refused atomically: with an entered quantity of at least 1, if
some record of the catalog already has the entered ISBN, `addBook` reports the duplicate
and leaves the catalog exactly as it was; if no record has that ISBN, the catalog after
the call is the old catalog with the new record appended at the end. -/
theorem addBook_duplicate_refused (books : List Book) (title author isbn : Str)
    (quantity : Int) (_hq : 1 ≤ quantity) :
    ((∃ b ∈ books, b.isbn = isbn) →
        addBook books title author isbn quantity = (books, AddOutcome.alreadyExists)) ∧
    ((∀ b ∈ books, b.isbn ≠ isbn) →
        addBook books title author isbn quantity
          = (books ++ [⟨title, author, isbn, quantity⟩], AddOutcome.added)) := by
  constructor
  · intro h
    unfold addBook
    rw [(isbnExists_iff books isbn).2 h]
    rfl
  · intro h
    have hex : isbnExists books isbn = false := by
      cases hb : isbnExists books isbn with
      | false => rfl
      | true =>
        obtain ⟨b, hb', hbi⟩ := (isbnExists_iff books isbn).1 hb
        exact absurd hbi (h b hb')
    unfold addBook
    rw [hex]
    rfl

theorem addBook_duplicate_refused_witness :
    (1 : Int) ≤ 5 ∧
    (∃ b ∈ [(⟨"Dune".toList, "Frank Herbert".toList, "0441013597".toList, 3⟩ : Book)],
      b.isbn = "0441013597".toList) ∧
    addBook [(⟨"Dune".toList, "Frank Herbert".toList, "0441013597".toList, 3⟩ : Book)]
        "Dune Messiah".toList "F. Herbert".toList "0441013597".toList 5
      = ([(⟨"Dune".toList, "Frank Herbert".toList, "0441013597".toList, 3⟩ : Book)],
          AddOutcome.alreadyExists) :=
  ⟨by decide, by decide,
    (addBook_duplicate_refused _ "Dune Messiah".toList "F. Herbert".toList
      "0441013597".toList 5 (by decide)).1 (by decide)⟩

/-- C3. Uniqueness is an invariant of add: starting from any catalog whose ISBNs are
pairwise distinct, and so from the empty catalog, after any finite sequence of `addBook`
calls with arbitrary entered records no two records at different positions of the catalog
have the same ISBN. -/
theorem addBook_keeps_isbns_distinct (books entered : List Book)
    (h : DistinctIsbns books) :
    DistinctIsbns (addAll books entered) ∧ DistinctIsbns (addAll [] entered) :=
  ⟨addAll_distinct books entered h, addAll_distinct [] entered List.Pairwise.nil⟩

theorem addBook_keeps_isbns_distinct_witness :
    DistinctIsbns [(⟨"Dune".toList, "Frank Herbert".toList, "0441013597".toList, 3⟩ : Book)] ∧
    DistinctIsbns (addAll
      [(⟨"Dune".toList, "Frank Herbert".toList, "0441013597".toList, 3⟩ : Book)]
      [⟨"Emma".toList, "Austen".toList, "0441013597".toList, 1⟩,
        ⟨"Emma".toList, "Austen".toList, "111".toList, 1⟩,
        ⟨"Persuasion".toList, "Austen".toList, "111".toList, 2⟩]) :=
  ⟨by decide, (addBook_keeps_isbns_distinct _ _ (by decide)).1⟩

/-! ## Search -/

theorem containsSubstring_iff (s term : Str) :
    ContainsSubstring s term ↔ term <:+: s := by
  constructor
  · rintro ⟨pre, post, h⟩
    exact ⟨pre, post, h.symm⟩
  · rintro ⟨pre, post, h⟩
    exact ⟨pre, post, h.symm⟩

theorem isPrefixOf_true_iff (l₁ l₂ : Str) : l₁.isPrefixOf l₂ = true ↔ l₁ <+: l₂ := by
  simp

theorem findFrom_iff (term s : Str) (pos : Nat) :
    findFrom term s pos ≠ none ↔ ContainsSubstring s term := by
  rw [containsSubstring_iff]
  induction s generalizing pos with
  | nil =>
    unfold findFrom
    by_cases h : term = []
    · simp [h]
    · simp [h, List.infix_nil]
  | cons c cs ih =>
    unfold findFrom
    rw [List.infix_cons_iff]
    by_cases h : term.isPrefixOf (c :: cs) = true
    · simp only [h, if_true]
      simp [List.isPrefixOf_iff_prefix.1 h]
    · simp only [h, if_false, Bool.false_eq_true]
      rw [ih]
      have : ¬ term <+: c :: cs := fun hp => h ((isPrefixOf_true_iff _ _).2 hp)
      simp [this]

theorem find_iff (s term : Str) : find s term ≠ none ↔ ContainsSubstring s term :=
  findFrom_iff term s 0

theorem search_foldl (choice : Int) (term : Str) (p : Book → Bool)
    (hstep : ∀ results book,
      searchStep choice term results book = if p book then results ++ [book] else results)
    (books results : List Book) :
    books.foldl (searchStep choice term) results = results ++ books.filter p := by
  induction books generalizing results with
  | nil => simp
  | cons b bs ih =>
    rw [List.foldl_cons, ih, hstep]
    by_cases hb : p b = true
    · simp [hb, List.filter_cons]
    · simp [hb, List.filter_cons]

theorem searchBook_filter (choice : Int) (term : Str) (p : Book → Bool)
    (hstep : ∀ results book,
      searchStep choice term results book = if p book then results ++ [book] else results)
    (books : List Book) : searchBook books choice term = books.filter p := by
  unfold searchBook
  cases books with
  | nil => rfl
  | cons b bs =>
    simp only [List.isEmpty_cons, Bool.false_eq_true, if_false]
    rw [search_foldl choice term p hstep]
    rfl

theorem searchBook_title (books : List Book) (term : Str) :
    searchBook books 1 term
      = books.filter (fun b => decide (ContainsSubstring b.title term)) := by
  apply searchBook_filter
  intro results book
  unfold searchStep
  by_cases h : ContainsSubstring book.title term
  · simp [h, (find_iff book.title term).2 h]
  · have : find book.title term = none := by
      by_contra hne
      exact h ((find_iff book.title term).1 hne)
    simp [h, this]

theorem searchBook_author (books : List Book) (term : Str) :
    searchBook books 2 term
      = books.filter (fun b => decide (ContainsSubstring b.author term)) := by
  apply searchBook_filter
  intro results book
  unfold searchStep
  by_cases h : ContainsSubstring book.author term
  · simp [h, (find_iff book.author term).2 h]
  · have : find book.author term = none := by
      by_contra hne
      exact h ((find_iff book.author term).1 hne)
    simp [h, this]

theorem searchBook_isbn (books : List Book) (key : Str) :
    searchBook books 3 key = books.filter (fun b => decide (b.isbn = key)) := by
  apply searchBook_filter
  intro results book
  unfold searchStep
  by_cases h : book.isbn = key
  · simp [h]
  · simp [h]

theorem containsSubstring_nil (s : Str) : ContainsSubstring s [] := ⟨[], s, rfl⟩

/-- C4. Substring search is exact: in title mode (selector 1) `searchBook` finds exactly the
records whose title contains the term as a contiguous run of the same characters, in
catalog order, and in author mode (selector 2) the same over the author; so an empty term
finds the whole catalog and a term occurring in no title finds nothing. -/
theorem searchBook_substring_exact (books : List Book) (term : Str) :
    searchBook books 1 term
        = books.filter (fun b => decide (ContainsSubstring b.title term)) ∧
    searchBook books 2 term
        = books.filter (fun b => decide (ContainsSubstring b.author term)) ∧
    searchBook books 1 [] = books ∧ searchBook books 2 [] = books ∧
    ((∀ b ∈ books, ¬ ContainsSubstring b.title term) → searchBook books 1 term = []) := by
  refine ⟨searchBook_title books term, searchBook_author books term, ?_, ?_, ?_⟩
  · rw [searchBook_title]
    simp [containsSubstring_nil]
  · rw [searchBook_author]
    simp [containsSubstring_nil]
  · intro h
    rw [searchBook_title, List.filter_eq_nil_iff]
    intro b hb
    simpa using h b hb

theorem searchBook_substring_exact_witness :
    (∀ b ∈ [(⟨"The Go Programming Language".toList, "Donovan".toList, "978".toList, 2⟩ : Book),
        ⟨"Dune".toList, "Frank Herbert".toList, "0441013597".toList, 3⟩],
      ¬ ContainsSubstring b.title "go programming".toList) ∧
    searchBook [(⟨"The Go Programming Language".toList, "Donovan".toList, "978".toList, 2⟩ : Book),
        ⟨"Dune".toList, "Frank Herbert".toList, "0441013597".toList, 3⟩] 1
      "go programming".toList = [] ∧
    searchBook [(⟨"The Go Programming Language".toList, "Donovan".toList, "978".toList, 2⟩ : Book),
        ⟨"Dune".toList, "Frank Herbert".toList, "0441013597".toList, 3⟩] 1
      "Go Programming".toList
      = [⟨"The Go Programming Language".toList, "Donovan".toList, "978".toList, 2⟩] :=
  ⟨by decide, (searchBook_substring_exact _ "go programming".toList).2.2.2.2 (by decide),
    by decide⟩

theorem filter_isbn_length (books : List Book) (key : Str) (h : DistinctIsbns books) :
    (books.filter (fun b => decide (b.isbn = key))).length ≤ 1 := by
  induction books with
  | nil => simp
  | cons b bs ih =>
    unfold DistinctIsbns at h ih
    rw [List.pairwise_cons] at h
    by_cases hb : b.isbn = key
    · have hnil : bs.filter (fun x => decide (x.isbn = key)) = [] := by
        rw [List.filter_eq_nil_iff]
        intro x hx
        have := h.1 x hx
        simpa using fun hxk => this (hb.trans hxk.symm)
      simp [List.filter_cons, hb, hnil]
    · simpa [List.filter_cons, hb] using ih h.2

/-- C5. Exact-key search: in ISBN mode (selector 3) `searchBook` finds exactly the records
whose ISBN equals the key as a whole string, in catalog order, so every record found has
the key as its ISBN; and when the ISBNs of the catalog are pairwise distinct it finds
zero or one record. -/
theorem searchBook_isbn_exact (books : List Book) (key : Str) :
    searchBook books 3 key = books.filter (fun b => decide (b.isbn = key)) ∧
    (∀ b ∈ searchBook books 3 key, b.isbn = key) ∧
    (DistinctIsbns books → (searchBook books 3 key).length ≤ 1) := by
  refine ⟨searchBook_isbn books key, ?_, ?_⟩
  · intro b hb
    rw [searchBook_isbn, List.mem_filter] at hb
    simpa using hb.2
  · intro h
    rw [searchBook_isbn]
    exact filter_isbn_length books key h

theorem searchBook_isbn_exact_witness :
    DistinctIsbns [(⟨"Go".toList, "Donovan".toList, "978-0-13-468599-1".toList, 2⟩ : Book),
        ⟨"Dune".toList, "Frank Herbert".toList, "978-0".toList, 3⟩] ∧
    (searchBook [(⟨"Go".toList, "Donovan".toList, "978-0-13-468599-1".toList, 2⟩ : Book),
        ⟨"Dune".toList, "Frank Herbert".toList, "978-0".toList, 3⟩] 3
      "978-0".toList).length ≤ 1 :=
  ⟨by decide, (searchBook_isbn_exact _ "978-0".toList).2.2 (by decide)⟩

/-! ## Decoding a line -/

theorem decodeLine_eq_none_iff (line : Str) :
    decodeLine line = none ↔
      (splitSegments line).length ≠ 4 ∨
        ∃ s0 s1 s2 s3, splitSegments line = [s0, s1, s2, s3] ∧ stoi s3 = none := by
  unfold decodeLine
  split
  · rename_i s0 s1 s2 s3 heq
    cases hst : stoi s3 with
    | none =>
      simp only [heq, true_iff]
      exact Or.inr ⟨s0, s1, s2, s3, rfl, hst⟩
    | some q =>
      simp only [heq, List.length_cons, List.length_nil]
      constructor
      · intro h; exact Option.noConfusion h
      · rintro (h | ⟨a, b, c, d, habcd, hd⟩)
        · exact absurd rfl h
        · simp only [List.cons.injEq, and_true] at habcd
          rw [← habcd.2.2.2, hst] at hd
          exact Option.noConfusion hd
  · rename_i hne
    simp only [true_iff]
    by_cases hlen : (splitSegments line).length = 4
    · exfalso
      match hs : splitSegments line, hlen with
      | [a, b, c, d], _ => exact hne a b c d hs
    · exact Or.inl hlen

theorem decodeLine_wrong_count (line : Str) (h : (splitSegments line).length ≠ 4) :
    decodeLine line = none :=
  (decodeLine_eq_none_iff line).2 (Or.inl h)

theorem pieces_length (d : Char) (s : Str) :
    (pieces d s).length
      = s.count d + (if s = [] ∨ s.getLast? = some d then 0 else 1) := by
  induction s with
  | nil => simp [pieces]
  | cons c cs ih =>
    by_cases hc : c = d
    · subst hc
      simp only [pieces, if_true, List.length_cons, ih, List.count_cons_self]
      cases cs with
      | nil => simp
      | cons c' cs' =>
        simp only [List.getLast?_cons_cons, List.cons_ne_nil, false_or]
        omega
    · have hcount : (c :: cs).count d = cs.count d :=
        List.count_cons_of_ne (fun h => hc h.symm) cs
      rw [hcount]
      cases cs with
      | nil =>
        have : ¬ (some c = some d) := fun h => hc (Option.some.inj h)
        simp [pieces, hc, this]
      | cons c' cs' =>
        have hlen : (pieces d (c :: c' :: cs')).length = (pieces d (c' :: cs')).length := by
          have hne : pieces d (c' :: cs') ≠ [] := fun h =>
            List.cons_ne_nil _ _ ((pieces_eq_nil d _).1 h)
          rw [show pieces d (c :: c' :: cs') = (match pieces d (c' :: cs') with
            | [] => [[c]]
            | p :: ps => (c :: p) :: ps) by simp [pieces, hc]]
          cases hp : pieces d (c' :: cs') with
          | nil => exact absurd hp hne
          | cons p ps => rfl
        rw [hlen, ih]
        simp [List.getLast?_cons_cons]

theorem stripSign_spec (body : Str) :
    ∃ sign, body = sign ++ (stripSign body).2 ∧
      (sign = ['-'] ∧ (stripSign body).1 = true ∨
        (sign = ['+'] ∨ sign = []) ∧ (stripSign body).1 = false) := by
  unfold stripSign
  split
  · exact ⟨['-'], rfl, Or.inl ⟨rfl, rfl⟩⟩
  · exact ⟨['+'], rfl, Or.inr ⟨Or.inl rfl, rfl⟩⟩
  · exact ⟨[], rfl, Or.inr ⟨Or.inr rfl, rfl⟩⟩

theorem head?_dropWhile_isdigit (s : Str) (c : Char)
    (h : (s.dropWhile isdigit).head? = some c) : isdigit c = false := by
  have := List.head?_dropWhile_not isdigit s
  rw [h] at this
  exact this

theorem stoi_of_startsWithInt (s : Str) (v : Int) (h : StartsWithInt s v) :
    stoi s = some v := by
  obtain ⟨ws, sign, ds, rest, rfl, hws, hsign, hne, hds, hrest, hv, hlo, hhi⟩ := h
  rcases hsign with rfl | rfl | rfl
  · rw [stoi_decompose ws ds rest false [] (Or.inr ⟨Or.inr rfl, rfl⟩) hws hds hne hrest]
    simp only [List.ne_cons_self, if_false, reduceCtorEq] at hv
    subst hv
    simp only [Bool.false_eq_true, if_false, hlo, hhi, and_self, if_true]
  · rw [stoi_decompose ws ds rest false ['+'] (Or.inr ⟨Or.inl rfl, rfl⟩) hws hds hne hrest]
    have hpm : (['+'] : Str) ≠ ['-'] := by decide
    simp only [hpm, if_false] at hv
    subst hv
    simp only [Bool.false_eq_true, if_false, hlo, hhi, and_self, if_true]
  · rw [stoi_decompose ws ds rest true ['-'] (Or.inl ⟨rfl, rfl⟩) hws hds hne hrest]
    simp only [if_true] at hv
    subst hv
    simp only [if_true, hlo, hhi, and_self]

theorem startsWithInt_of_stoi (s : Str) (v : Int) (h : stoi s = some v) :
    StartsWithInt s v := by
  obtain ⟨sign, hbody, hsign⟩ := stripSign_spec (s.dropWhile isspace)
  obtain ⟨ds, hds⟩ : ∃ ds, ds = (stripSign (s.dropWhile isspace)).2.takeWhile isdigit :=
    ⟨_, rfl⟩
  obtain ⟨w, hw⟩ : ∃ w : Int, w = if (stripSign (s.dropWhile isspace)).1
      then - (digitsValue ds : Int) else (digitsValue ds : Int) := ⟨_, rfl⟩
  have hstoi : stoi s =
      if ds = [] then none else if INT_MIN ≤ w ∧ w ≤ INT_MAX then some w else none := by
    rw [hw, hds]
    rfl
  rw [hstoi] at h
  by_cases hne : ds = []
  · rw [if_pos hne] at h
    exact Option.noConfusion h
  · rw [if_neg hne] at h
    by_cases hrange : INT_MIN ≤ w ∧ w ≤ INT_MAX
    · rw [if_pos hrange] at h
      have hv : w = v := Option.some.inj h
      subst hv
      refine ⟨s.takeWhile isspace, sign, ds,
        (stripSign (s.dropWhile isspace)).2.dropWhile isdigit, ?_, ?_, ?_, hne, ?_, ?_, ?_,
        hrange.1, hrange.2⟩
      · rw [hds, List.append_assoc, List.append_assoc, List.takeWhile_append_dropWhile,
          ← hbody, List.takeWhile_append_dropWhile]
      · intro c hc
        exact List.mem_takeWhile_imp hc
      · rcases hsign with ⟨hs, -⟩ | ⟨hs | hs, -⟩
        · exact Or.inr (Or.inr hs)
        · exact Or.inr (Or.inl hs)
        · exact Or.inl hs
      · intro c hc
        rw [hds] at hc
        exact List.mem_takeWhile_imp hc
      · exact head?_dropWhile_isdigit _
      · rw [hw]
        rcases hsign with ⟨hs, hb⟩ | ⟨hs | hs, hb⟩
        · simp only [hs, hb, if_true]
        · have hpm : (['+'] : Str) ≠ ['-'] := by decide
          simp only [hs, hb, hpm, if_false, Bool.false_eq_true]
        · simp only [hs, hb, if_false, Bool.false_eq_true, List.ne_cons_self, reduceCtorEq]
    · rw [if_neg hrange] at h
      exact Option.noConfusion h

theorem stoi_eq_some_iff (s : Str) (v : Int) : stoi s = some v ↔ StartsWithInt s v :=
  ⟨startsWithInt_of_stoi s v, stoi_of_startsWithInt s v⟩

theorem loadBooks_unlines_append (before after : List Str)
    (hlines : ∀ l ∈ before ++ after, '\n' ∉ l) :
    loadBooks (some (unlines (before ++ after)))
      = loadBooks (some (unlines before)) ++ loadBooks (some (unlines after)) := by
  have h0 := loadBooks_unlines (before ++ after) [] hlines (by simp)
  have h1 := loadBooks_unlines before [] (fun l hl => hlines l (List.mem_append_left _ hl))
    (by simp)
  have h2 := loadBooks_unlines after [] (fun l hl => hlines l (List.mem_append_right _ hl))
    (by simp)
  simp only [List.append_nil, if_true] at h0 h1 h2
  rw [h0, h1, h2, List.filterMap_append]

theorem count_nil_of_eq (line : Str) (h : line = []) : line.count '|' = 0 := by
  subst h; rfl

/-- C6 (the claim as stated fails here). The line `a|b|c|4|` holds four `'|'`, not three,
and a split at every `'|'` gives five fields; `loadBooks` keeps it all the same, because
`getline` hands over no empty piece after the last delimiter. -/
theorem field_count_counterexample :
    "a|b|c|4|".toList.count '|' ≠ 3 ∧
    ("a|b|c|4|".toList.splitOn '|').length ≠ 4 ∧
    decodeLine "a|b|c|4|".toList = some ⟨"a".toList, "b".toList, "c".toList, 4⟩ ∧
    loadBooks (some "a|b|c|4|\n".toList) = [⟨"a".toList, "b".toList, "c".toList, 4⟩] := by
  decide

/-- C6 (amended). The split of `loadBooks` yields exactly 4 segments just when the line
holds three `'|'` and does not end in one, or holds four `'|'` and ends in one.  Every
other line is discarded: it decodes to no record, and a file holding it loads the same
catalog as the file without it. -/
theorem field_count_rule (line : Str) :
    ((splitSegments line).length = 4 ↔
        (line.count '|' = 3 ∧ line.getLast? ≠ some '|') ∨
          (line.count '|' = 4 ∧ line.getLast? = some '|')) ∧
    ((splitSegments line).length ≠ 4 →
        decodeLine line = none ∧
          ∀ before after : List Str, (∀ l ∈ before ++ after, '\n' ∉ l) → '\n' ∉ line →
            loadBooks (some (unlines (before ++ line :: after)))
              = loadBooks (some (unlines (before ++ after)))) := by
  constructor
  · rw [splitSegments_eq, pieces_length]
    by_cases hnil : line = []
    · have hc := count_nil_of_eq line hnil
      simp only [hnil, true_or, if_true, hc]
      simp
    · by_cases hlast : line.getLast? = some '|'
      · simp only [hlast, or_true, if_true]
        constructor
        · intro h; exact Or.inr ⟨by omega, trivial⟩
        · rintro (⟨-, h⟩ | ⟨h, -⟩)
          · exact absurd rfl h
          · omega
      · have hcond : ¬ (line = [] ∨ line.getLast? = some '|') := by
          rintro (h | h)
          · exact hnil h
          · exact hlast h
        rw [if_neg hcond]
        constructor
        · intro h; exact Or.inl ⟨by omega, hlast⟩
        · rintro (⟨h, -⟩ | ⟨-, h⟩)
          · omega
          · exact absurd h hlast
  · intro h
    have hdec := decodeLine_wrong_count line h
    exact ⟨hdec, fun before after hl hline => loadBooks_skip before after line hl hline hdec⟩

theorem field_count_rule_witness :
    (splitSegments "foo|bar".toList).length ≠ 4 ∧
    decodeLine "foo|bar".toList = none ∧
    loadBooks (some (unlines (["Dune|Frank Herbert|0441013597|3".toList]
        ++ "foo|bar".toList :: [])))
      = loadBooks (some (unlines (["Dune|Frank Herbert|0441013597|3".toList] ++ []))) :=
  ⟨by decide, ((field_count_rule "foo|bar".toList).2 (by decide)).1,
    ((field_count_rule "foo|bar".toList).2 (by decide)).2
      ["Dune|Frank Herbert|0441013597|3".toList] [] (by decide) (by decide)⟩

/-- C7 (the claim as stated fails here). The line `a|b|c|12abc` splits into 4 fields and
its fourth field `12abc` is not an integer written in decimal; `loadBooks` keeps the line,
with quantity 12, because `stoi` stops reading at the first character that is no digit.
A field with leading white space and a plus sign, ` +7`, is read the same way. -/
theorem quantity_parse_counterexample :
    splitSegments "a|b|c|12abc".toList
      = ["a".toList, "b".toList, "c".toList, "12abc".toList] ∧
    isDecimalInteger "12abc".toList = false ∧
    loadBooks (some "a|b|c|12abc\n".toList) = [⟨"a".toList, "b".toList, "c".toList, 12⟩] ∧
    isDecimalInteger " +7".toList = false ∧
    loadBooks (some "a|b|c| +7\n".toList) = [⟨"a".toList, "b".toList, "c".toList, 7⟩] := by
  decide

/-- C7 (amended). For a line that splits into 4 fields: when the fourth field begins, after
any leading white space, with an optional sign and one or more decimal digits that denote a
number `v` within the `int` range, the line is kept with quantity `v`, whatever follows the
digits; in every other case the line is discarded: it decodes to no record, and a file
holding it loads the same catalog as the file without it. -/
theorem quantity_parse_rule (line s0 s1 s2 s3 : Str)
    (hsplit : splitSegments line = [s0, s1, s2, s3]) :
    (∀ v, StartsWithInt s3 v → decodeLine line = some ⟨s0, s1, s2, v⟩) ∧
    ((¬ ∃ v, StartsWithInt s3 v) →
        decodeLine line = none ∧
          ∀ before after : List Str, (∀ l ∈ before ++ after, '\n' ∉ l) → '\n' ∉ line →
            loadBooks (some (unlines (before ++ line :: after)))
              = loadBooks (some (unlines (before ++ after)))) := by
  constructor
  · intro v hv
    unfold decodeLine
    rw [hsplit]
    simp only [(stoi_eq_some_iff s3 v).2 hv]
  · intro hno
    have hst : stoi s3 = none := by
      cases h : stoi s3 with
      | none => rfl
      | some v => exact absurd ⟨v, (stoi_eq_some_iff s3 v).1 h⟩ hno
    have hdec : decodeLine line = none :=
      (decodeLine_eq_none_iff line).2 (Or.inr ⟨s0, s1, s2, s3, hsplit, hst⟩)
    exact ⟨hdec, fun before after hl hline => loadBooks_skip before after line hl hline hdec⟩

theorem quantity_parse_rule_witness :
    splitSegments "a|b|c|12abc".toList
        = ["a".toList, "b".toList, "c".toList, "12abc".toList] ∧
    StartsWithInt "12abc".toList 12 ∧
    decodeLine "a|b|c|12abc".toList = some ⟨"a".toList, "b".toList, "c".toList, 12⟩ :=
  have hstart : StartsWithInt "12abc".toList 12 :=
    ⟨[], [], "12".toList, "abc".toList, by decide, by decide, by decide, by decide, by decide,
      by decide, by decide, by decide, by decide⟩
  ⟨by decide, hstart,
    (quantity_parse_rule "a|b|c|12abc".toList "a".toList "b".toList "c".toList
      "12abc".toList (by decide)).1 12 hstart⟩

/-- C8 (the code at the failing input). A file line with quantity `0`, or `-3`, is loaded
as a record with that quantity: `loadBooks` makes no test of the number `stoi` returns,
while the quantity prompt of `addBook` refuses every number below 1. -/
theorem loadBooks_admits_nonpositive_quantity :
    loadBooks (some "Dune|Frank Herbert|0441013597|0\n".toList)
      = [⟨"Dune".toList, "Frank Herbert".toList, "0441013597".toList, 0⟩] ∧
    loadBooks (some "Dune|Frank Herbert|0441013597|-3\n".toList)
      = [⟨"Dune".toList, "Frank Herbert".toList, "0441013597".toList, -3⟩] ∧
    readQuantity [some 0, some (-3), none, some 2] = some 2 := by
  decide

/-- C9. Malformed-line tolerance of load: every backing file is a sequence of lines, and the
catalog `loadBooks` returns is exactly the sequence of records decoded from its lines that
decode, in file order; a line is malformed (decodes to nothing) just when its field count
is not 4 or `stoi` rejects its fourth field, and such a line neither stops the load nor
touches the records of the lines before and after it. -/
theorem loadBooks_malformed_tolerance (contents : Str) :
    (∃ (ls : List Str) (last : Str),
        contents = unlines ls ++ last ∧ (∀ l ∈ ls, '\n' ∉ l) ∧ '\n' ∉ last) ∧
    (∀ (ls : List Str) (last : Str),
        contents = unlines ls ++ last → (∀ l ∈ ls, '\n' ∉ l) → '\n' ∉ last →
          loadBooks (some contents)
            = (ls ++ (if last = [] then [] else [last])).filterMap decodeLine) ∧
    (∀ (before after : List Str) (bad : Str),
        contents = unlines (before ++ bad :: after) → (∀ l ∈ before ++ after, '\n' ∉ l) →
          '\n' ∉ bad → decodeLine bad = none →
            loadBooks (some contents)
              = loadBooks (some (unlines before)) ++ loadBooks (some (unlines after))) ∧
    (∀ line : Str, decodeLine line = none ↔
        (splitSegments line).length ≠ 4 ∨
          ∃ s0 s1 s2 s3, splitSegments line = [s0, s1, s2, s3] ∧ stoi s3 = none) := by
  refine ⟨file_shape contents, ?_, ?_, decodeLine_eq_none_iff⟩
  · intro ls last hc hls hlast
    rw [hc]
    exact loadBooks_unlines ls last hls hlast
  · intro before after bad hc hl hbad hdec
    rw [hc, loadBooks_skip before after bad hl hbad hdec]
    exact loadBooks_unlines_append before after hl

theorem loadBooks_malformed_tolerance_witness :
    decodeLine "foo|bar".toList = none ∧
    loadBooks (some "Dune|Frank Herbert|0441013597|3\nfoo|bar\nEmma|Jane Austen|0141439580|1\n".toList)
      = loadBooks (some (unlines ["Dune|Frank Herbert|0441013597|3".toList]))
        ++ loadBooks (some (unlines ["Emma|Jane Austen|0141439580|1".toList])) ∧
    loadBooks (some "Dune|Frank Herbert|0441013597|3\nfoo|bar\n".toList)
      = [⟨"Dune".toList, "Frank Herbert".toList, "0441013597".toList, 3⟩] :=
  ⟨by decide,
    (loadBooks_malformed_tolerance
      "Dune|Frank Herbert|0441013597|3\nfoo|bar\nEmma|Jane Austen|0141439580|1\n".toList).2.2.1
      ["Dune|Frank Herbert|0441013597|3".toList] ["Emma|Jane Austen|0141439580|1".toList]
      "foo|bar".toList (by decide) (by decide) (by decide) (by decide),
    by decide⟩

/-- C10 (the code at the failing input). A file with two lines of the same ISBN is loaded
as two records with that ISBN: `loadBooks` appends every decoded line and never makes the
scan for an existing ISBN that `addBook` makes. -/
theorem loadBooks_admits_duplicate_isbn :
    loadBooks (some "Dune|Frank Herbert|0441013597|3\nEmma|Jane Austen|0441013597|1\n".toList)
      = [⟨"Dune".toList, "Frank Herbert".toList, "0441013597".toList, 3⟩,
          ⟨"Emma".toList, "Jane Austen".toList, "0441013597".toList, 1⟩] ∧
    ¬ DistinctIsbns (loadBooks
      (some "Dune|Frank Herbert|0441013597|3\nEmma|Jane Austen|0441013597|1\n".toList)) := by
  decide

end Library
